/-
Verification of the core inference engine of `soonum/zama-trial`
(`src/lib.rs`): a dense tensor type `Array`, four layer operators
(`Flatten`, `ReLu`, `LinearCombination`, `SoftMax`) and a `Network`
driving them in sequence.

Modelling conventions, chosen once for the whole development:

* Rust `f64` is modelled as exact arithmetic in a linear ordered
  commutative ring with a division operation (`ℤ` is used to evaluate
  concrete integer-valued runs, `ℝ` with `Real.exp` for the SoftMax
  analysis).  No rounding is modelled.
* Every fallible Rust computation returns a `RunResult`:
  `.ok` for a normal return, `.err s` for `Err(s)`, and `.crash` for a
  Rust process abort (an `assert_eq!` failure, an out-of-bounds index or
  slice, or `.unwrap()` applied to an `Err`).
* Vectors are Lean lists; `Vec<usize>` is `List Nat`.
* Indexed writes `v[i] = x` are modelled with `List.set` guarded by the
  same bounds check Rust performs, yielding `.crash`/`none` out of range.
-/
import Mathlib

set_option maxHeartbeats 1000000

namespace Trial

variable {α : Type} [LinearOrderedCommRing α] [Div α]

/-- Outcome of a fallible Rust computation: normal return, `Err`, or a
process abort (assertion failure, out-of-bounds access, `unwrap` on `Err`). -/
inductive RunResult (σ : Type) where
  | ok : σ → RunResult σ
  | err : String → RunResult σ
  | crash : RunResult σ
deriving DecidableEq

/-- Rust `Array`: a flat data buffer plus a shape descriptor
(`pub struct Array { pub data: Vec<f64>, dimensions: Vec<usize> }`). -/
structure NNArray (α : Type) where
  data : List α
  dimensions : List Nat
deriving DecidableEq

/-- `Array::new(data, dimensions)`: `assert_eq!(data.len(), dimensions.iter().product())`
aborts (`crash`) when the product of the dimensions differs from the data
length; otherwise the array is built. -/
def NNArray.new (data : List α) (dimensions : List Nat) : RunResult (NNArray α) :=
  if data.length = dimensions.prod then .ok ⟨data, dimensions⟩ else .crash

/-- `Array::empty()` = `Array::new(vec![], vec![0])`; the assertion `0 = 0`
always passes, so the result is the concrete array `⟨[], [0]⟩`. -/
def NNArray.empty : NNArray α := ⟨[], [0]⟩

/-- `Array::len()`. -/
def NNArray.len (a : NNArray α) : Nat := a.data.length

/-- `Array::n_dim()`. -/
def NNArray.n_dim (a : NNArray α) : Nat := a.dimensions.length

/-- `Array::copy_array(&mut self, other)`.  Rust branches on
`self.len() == other.len()` only to reuse the existing allocation
(`copy_from_slice`) instead of cloning; both branches leave
`self.data == other.data`, and the shape descriptor is always replaced by
`other.dimensions`, so the observable result is the same in both branches. -/
def NNArray.copy_array (_self other : NNArray α) : NNArray α :=
  ⟨other.data, other.dimensions⟩

/-- `Array::reshape(&mut self, dimensions)`:
`assert_eq!(self.data.len(), dimensions.iter().product())` aborts on
mismatch; otherwise only the shape descriptor changes. -/
def NNArray.reshape (self : NNArray α) (dimensions : List Nat) : RunResult (NNArray α) :=
  if self.data.length = dimensions.prod then .ok ⟨self.data, dimensions⟩ else .crash

/-- The `Array` shape invariant: the product of the dimensions equals the
length of the data buffer. -/
def NNArray.wf (a : NNArray α) : Prop := a.data.length = a.dimensions.prod

instance (a : NNArray α) : Decidable a.wf :=
  inferInstanceAs (Decidable (a.data.length = a.dimensions.prod))

/-- `pub struct Flatten { pub output: Array }`. -/
structure Flatten (α : Type) where
  output : NNArray α
deriving DecidableEq

/-- `Flatten::new()`. -/
def Flatten.new : Flatten α := ⟨NNArray.empty⟩

/-- `Flatten::initialize_array` is empty: it ignores its arguments and
changes nothing. -/
def Flatten.init_array (self : Flatten α) (_size : Nat) (_dimensions : List Nat) :
    Flatten α :=
  self

/-- `Flatten::execute_operation`: copy the input into the output buffer,
then reshape it to the single dimension `[input.len()]`. -/
def Flatten.execute_operation (self : Flatten α) (input : NNArray α) :
    RunResult (Flatten α) :=
  match (self.output.copy_array input).reshape [input.len] with
  | .ok o => .ok ⟨o⟩
  | .err s => .err s
  | .crash => .crash

/-- `pub struct ReLu { pub output: Array }`. -/
structure ReLu (α : Type) where
  output : NNArray α
deriving DecidableEq

/-- `ReLu::new()`. -/
def ReLu.new : ReLu α := ⟨NNArray.empty⟩

/-- `ReLu::initialize_array(size, dimensions)`: lazily allocate the output
(`Array::new(vec![0.; size], dimensions)`) only when it is currently empty. -/
def ReLu.init_array (self : ReLu α) (size : Nat) (dimensions : List Nat) :
    RunResult (ReLu α) :=
  if self.output.len = 0 then
    match NNArray.new (List.replicate size (0 : α)) dimensions with
    | .ok a => .ok ⟨a⟩
    | .err s => .err s
    | .crash => .crash
  else .ok self

/-- The write loop of `ReLu::execute_operation`:
`for (n, item) in input { self.output.data[n] = item.max(0.0) }`; the
indexed write aborts (`none`) as soon as `n` is out of bounds. -/
def reluWrite : List α → Nat → List α → Option (List α)
  | out, _, [] => some out
  | out, n, item :: rest =>
    if n < out.length then reluWrite (out.set n (max item 0)) (n + 1) rest
    else none

/-- `ReLu::execute_operation`: initialize the output lazily, then write
`max(item, 0)` at index `n` for every enumerated input element. -/
def ReLu.execute_operation (self : ReLu α) (input : NNArray α) :
    RunResult (ReLu α) :=
  match self.init_array input.len [input.len] with
  | .ok st =>
    match reluWrite st.output.data 0 input.data with
    | some d => .ok ⟨⟨d, st.output.dimensions⟩⟩
    | none => .crash
  | .err s => .err s
  | .crash => .crash

/-- `pub struct LinearCombination { pub output: Array, weights: Array, bias: Array }`. -/
structure LinearCombination (α : Type) where
  output : NNArray α
  weights : NNArray α
  bias : NNArray α
deriving DecidableEq

/-- `LinearCombination::new(weights, weights_dimensions, bias)`: build the
weights array (the `Array::new` assertion may abort) and the bias array
with shape `[bias.len()]` (its assertion always passes).  No other check is
performed at construction. -/
def LinearCombination.new (weights : List α) (weights_dimensions : List Nat)
    (bias : List α) : RunResult (LinearCombination α) :=
  match NNArray.new weights weights_dimensions, NNArray.new bias [bias.length] with
  | .ok w, .ok b => .ok ⟨NNArray.empty, w, b⟩
  | _, _ => .crash

/-- `LinearCombination::initialize_array(size, dimensions)`: unconditionally
`self.output.copy_array(&Array::new(vec![0.0; size], dimensions))` — unlike
the other operators there is no emptiness test, so the output buffer is
reset to zeros on every call (the inner `Array::new` can abort when `size`
differs from the product of `dimensions`). -/
def LinearCombination.init_array (self : LinearCombination α) (size : Nat)
    (dimensions : List Nat) : RunResult (LinearCombination α) :=
  match NNArray.new (List.replicate size (0 : α)) dimensions with
  | .ok z => .ok ⟨self.output.copy_array z, self.weights, self.bias⟩
  | .err s => .err s
  | .crash => .crash

/-- The inner loop of `LinearCombination::execute_operation`:
`for m in 0..column_size { self.output.data[m] += weights_column[m] * item }`.
`k` is the number of remaining iterations (initially `column_size`), `m` the
current index; reads and the indexed write abort (`none`) out of bounds. -/
def lcInner (wcol : List α) (item : α) : List α → Nat → Nat → Option (List α)
  | out, _, 0 => some out
  | out, m, k + 1 =>
    match wcol[m]?, out[m]? with
    | some wv, some ov => lcInner wcol item (out.set m (ov + wv * item)) (m + 1) k
    | _, _ => none

/-- The outer loop of `LinearCombination::execute_operation` over the
enumerated input.  At step `n` the weight row is the slice
`&weights[inbound..outbound]` with `inbound = n * column_size` and
`outbound = inbound + column_size` (the Rust code initializes the pair to
`(0, column_size)` and recomputes it for `n > 0`, which is the same value);
slicing aborts when `outbound` exceeds the weights length. -/
def lcOuter (w : List α) (csize : Nat) : List α → Nat → List α → Option (List α)
  | out, _, [] => some out
  | out, n, item :: rest =>
    let inbound := n * csize
    let outbound := inbound + csize
    if outbound ≤ w.length then
      match lcInner ((w.drop inbound).take csize) item out 0 csize with
      | some out2 => lcOuter w csize out2 (n + 1) rest
      | none => none
    else none

/-- The bias loop of `LinearCombination::execute_operation`:
`for (n, item) in bias { self.output.data[n] += item }`. -/
def addBias : List α → Nat → List α → Option (List α)
  | out, _, [] => some out
  | out, n, bv :: rest =>
    match out[n]? with
    | some ov => addBias (out.set n (ov + bv)) (n + 1) rest
    | none => none

/-- `LinearCombination::execute_operation`: reject the input with an `Err`
when `input.len() * bias.len() != weights.len()`; otherwise zero the output
(via `initialize_array`), accumulate every weight row scaled by the matching
input element, then add the bias. -/
def LinearCombination.execute_operation (self : LinearCombination α)
    (input : NNArray α) : RunResult (LinearCombination α) :=
  if input.len * self.bias.len ≠ self.weights.len then
    .err "Arrays dimension mismatch"
  else
    match self.init_array self.bias.len self.bias.dimensions with
    | .ok st =>
      match lcOuter st.weights.data st.bias.len st.output.data 0 input.data with
      | some d1 =>
        match addBias d1 0 st.bias.data with
        | some d2 => .ok ⟨⟨d2, st.output.dimensions⟩, st.weights, st.bias⟩
        | none => .crash
      | none => .crash
    | .err s => .err s
    | .crash => .crash

/-- `LinearCombination::count_parameters()`. -/
def LinearCombination.count_parameters (self : LinearCombination α) : Nat :=
  self.weights.data.length + self.bias.len

/-- `pub struct SoftMax { pub output: Array }`. -/
structure SoftMax (α : Type) where
  output : NNArray α
deriving DecidableEq

/-- `SoftMax::new()`. -/
def SoftMax.new : SoftMax α := ⟨NNArray.empty⟩

/-- `SoftMax::initialize_array(size, dimensions)`: lazily allocate the output
only when it is currently empty (same shape of code as `ReLu`). -/
def SoftMax.init_array (self : SoftMax α) (size : Nat) (dimensions : List Nat) :
    RunResult (SoftMax α) :=
  if self.output.len = 0 then
    match NNArray.new (List.replicate size (0 : α)) dimensions with
    | .ok a => .ok ⟨a⟩
    | .err s => .err s
    | .crash => .crash
  else .ok self

/-- `SoftMax::execute_operation` with `e` standing for `f64::exp`:
initialize lazily (the result is immediately discarded), map `e` over the
input, sum, and rebuild the output as a fresh array of the normalized
exponentials with shape `[normalized_input.len()]`. -/
def SoftMax.execute_operation (e : α → α) (self : SoftMax α) (input : NNArray α) :
    RunResult (SoftMax α) :=
  match self.init_array input.len [input.len] with
  | .ok _st =>
    let normalized_input := input.data.map e
    let normalized_sum := normalized_input.sum
    match NNArray.new (normalized_input.map (fun x => x / normalized_sum))
        [normalized_input.length] with
    | .ok a => .ok ⟨a⟩
    | .err s => .err s
    | .crash => .crash
  | .err s => .err s
  | .crash => .crash

/-- The closed set of operator kinds stored as `Box<dyn Operator>` in the
network (the spec's sanctioned tagged-union rendering of the trait object). -/
inductive Op (α : Type) where
  | flatten : Flatten α → Op α
  | relu : ReLu α → Op α
  | linear : LinearCombination α → Op α
  | softmax : SoftMax α → Op α
deriving DecidableEq

/-- Dynamic dispatch of `Operator::execute_operation`; `e` models `f64::exp`
(used only by `SoftMax`). -/
def Op.execute_operation (e : α → α) : Op α → NNArray α → RunResult (Op α)
  | .flatten st, a =>
    match st.execute_operation a with
    | .ok st1 => .ok (.flatten st1)
    | .err s => .err s
    | .crash => .crash
  | .relu st, a =>
    match st.execute_operation a with
    | .ok st1 => .ok (.relu st1)
    | .err s => .err s
    | .crash => .crash
  | .linear st, a =>
    match st.execute_operation a with
    | .ok st1 => .ok (.linear st1)
    | .err s => .err s
    | .crash => .crash
  | .softmax st, a =>
    match st.execute_operation e a with
    | .ok st1 => .ok (.softmax st1)
    | .err s => .err s
    | .crash => .crash

/-- The operator's private output buffer (what `execute_operation` returns a
borrowed reference to). -/
def Op.output : Op α → NNArray α
  | .flatten st => st.output
  | .relu st => st.output
  | .linear st => st.output
  | .softmax st => st.output

/-- An operator exactly as its Rust constructor builds it: the output buffer
is `Array::empty()`, and a `LinearCombination` has its bias shaped
`[bias.len()]` by `LinearCombination::new`. -/
def Op.Fresh : Op α → Prop
  | .flatten st => st.output = NNArray.empty
  | .relu st => st.output = NNArray.empty
  | .linear st => st.output = NNArray.empty ∧ st.bias.dimensions = [st.bias.data.length]
  | .softmax st => st.output = NNArray.empty

/-- Length of the output buffer an operator constructed fresh produces on a
successful execution, as a function of the input length (`Flatten`, `ReLu`
and `SoftMax` produce the input's length, `LinearCombination` the bias
length). -/
def Op.outLen : Op α → Nat → Nat
  | .flatten _, l => l
  | .relu _, l => l
  | .linear st, _ => st.bias.data.length
  | .softmax _, l => l

instance (op : Op α) [DecidableEq α] : Decidable op.Fresh :=
  match op with
  | .flatten st => inferInstanceAs (Decidable (st.output = NNArray.empty))
  | .relu st => inferInstanceAs (Decidable (st.output = NNArray.empty))
  | .linear st =>
    inferInstanceAs (Decidable (st.output = NNArray.empty ∧
      st.bias.dimensions = [st.bias.data.length]))
  | .softmax st => inferInstanceAs (Decidable (st.output = NNArray.empty))

/-- `pub struct Network { operators: Vec<Box<dyn Operator>>, input: Array }`. -/
structure Network (α : Type) where
  operators : List (Op α)
  input : NNArray α
deriving DecidableEq

/-- `Network::new()`. -/
def Network.new : Network α := ⟨[], NNArray.empty⟩

/-- `Network::add_operator` (always returns `Ok(())`). -/
def Network.add_operator (self : Network α) (op : Op α) : Network α :=
  ⟨self.operators ++ [op], self.input⟩

/-- The fold inside `Network::execute_inference`:
`.fold(&self.input, |acc, op| op.execute_operation(acc).unwrap())`.
Each operator's updated state is collected; `.unwrap()` turns an operator
`Err` into a process abort (`crash`), and an operator abort propagates. -/
def Network.runOps (e : α → α) : List (Op α) → NNArray α →
    RunResult (List (Op α) × NNArray α)
  | [], a => .ok ([], a)
  | op :: rest, a =>
    match Op.execute_operation e op a with
    | .ok op1 =>
      match Network.runOps e rest op1.output with
      | .ok (ops1, out) => .ok (op1 :: ops1, out)
      | .err s => .err s
      | .crash => .crash
    | .err _ => .crash
    | .crash => .crash

/-- `Network::execute_inference`: store a copy of the caller's input, then
fold the operators over it, unwrapping each result. -/
def Network.execute_inference (e : α → α) (self : Network α) (input : NNArray α) :
    RunResult (Network α × NNArray α) :=
  match Network.runOps e self.operators input with
  | .ok (ops1, out) => .ok (⟨ops1, input⟩, out)
  | .err s => .err s
  | .crash => .crash

/-! ### Small list facts used throughout -/

theorem getD_set_self {β : Type} (l : List β) (m : Nat) (v d : β) (h : m < l.length) :
    (l.set m v).getD m d = v := by
  rw [List.getD_eq_getElem?_getD, List.getElem?_set]
  simp [h]

theorem getD_set_ne {β : Type} (l : List β) (m j : Nat) (v d : β) (h : m ≠ j) :
    (l.set m v).getD j d = l.getD j d := by
  rw [List.getD_eq_getElem?_getD, List.getElem?_set, if_neg h, ← List.getD_eq_getElem?_getD]

theorem set_take_succ {β : Type} :
    ∀ (l : List β) (n : Nat) (v : β), n < l.length →
      (l.set n v).take (n + 1) = l.take n ++ [v]
  | [], n, v, h => by simp at h
  | a :: t, 0, v, _ => by simp
  | a :: t, n + 1, v, h => by
    simp only [List.set_cons_succ, List.take_succ_cons, List.cons_append]
    rw [set_take_succ t n v (by simpa using Nat.lt_of_succ_lt_succ h)]

theorem getD_replicate_zero (n j : Nat) : (List.replicate n (0 : α)).getD j 0 = 0 := by
  rw [List.getD_eq_getElem?_getD, List.getElem?_replicate]
  by_cases h : j < n <;> simp [h]

/-- Element `j` of the slice `&w[lo .. lo + k]` is `w[lo + j]`. -/
theorem getD_slice (w : List α) (lo k j : Nat) (hj : j < k) (hb : lo + k ≤ w.length) :
    ((w.drop lo).take k).getD j 0 = w.getD (lo + j) 0 := by
  rw [List.getD_eq_getElem?_getD, List.getD_eq_getElem?_getD, List.getElem?_take,
    if_pos hj, List.getElem?_drop]

/-! ### The `ReLu` write loop -/

theorem reluWrite_spec :
    ∀ (xs out : List α) (n : Nat), n + xs.length ≤ out.length →
      reluWrite out n xs =
        some (out.take n ++ xs.map (fun x => max x 0) ++ out.drop (n + xs.length))
  | [], out, n, _h => by
    simp [reluWrite, List.take_append_drop]
  | x :: xs, out, n, h => by
    have hn : n < out.length := by simp at h; omega
    rw [reluWrite, if_pos hn,
      reluWrite_spec xs (out.set n (max x 0)) (n + 1) (by simp at h ⊢; omega)]
    rw [set_take_succ out n _ hn, List.drop_set_of_lt _ _ (by simp at h ⊢; omega)]
    have hL : n + (x :: xs).length = n + 1 + xs.length := by
      simp only [List.length_cons]
      omega
    rw [hL]
    simp only [List.map_cons, List.append_assoc, List.singleton_append]

theorem reluWrite_none :
    ∀ (xs out : List α) (n : Nat), xs ≠ [] → out.length < n + xs.length →
      reluWrite out n xs = none
  | [], _out, _n, hne, _h => absurd rfl hne
  | x :: xs, out, n, _hne, h => by
    rw [reluWrite]
    by_cases hn : n < out.length
    · rw [if_pos hn]
      have hxs : xs ≠ [] := by
        intro hnil
        rw [hnil] at h
        simp at h
        omega
      exact reluWrite_none xs (out.set n (max x 0)) (n + 1) hxs (by simp at h ⊢; omega)
    · rw [if_neg hn]

theorem reluWrite_length :
    ∀ (xs out : List α) (n : Nat) (r : List α), reluWrite out n xs = some r →
      r.length = out.length
  | [], out, n, r, h => by
    rw [reluWrite] at h
    cases h
    rfl
  | x :: xs, out, n, r, h => by
    rw [reluWrite] at h
    by_cases hn : n < out.length
    · rw [if_pos hn] at h
      have := reluWrite_length xs (out.set n (max x 0)) (n + 1) r h
      simpa using this
    · rw [if_neg hn] at h
      cases h

/-! ### The `LinearCombination` loops -/

theorem lcInner_spec (wcol : List α) (item : α) (k : Nat) :
    ∀ (out : List α) (m : Nat),
      m + k ≤ out.length → m + k ≤ wcol.length →
      ∃ r, lcInner wcol item out m k = some r ∧ r.length = out.length ∧
        (∀ j, j < m ∨ m + k ≤ j → r[j]? = out[j]?) ∧
        (∀ j, m ≤ j → j < m + k → r.getD j 0 = out.getD j 0 + wcol.getD j 0 * item) := by
  induction k with
  | zero =>
    intro out m _ho _hw
    exact ⟨out, rfl, rfl, fun _ _ => rfl, fun j h1 h2 => by omega⟩
  | succ k ih =>
    intro out m ho hw
    have hmo : m < out.length := by omega
    have hmw : m < wcol.length := by omega
    obtain ⟨r, hr, hlen, hout, hwin⟩ :=
      ih (out.set m (out.getD m 0 + wcol.getD m 0 * item)) (m + 1)
        (by simpa using by omega) (by omega)
    refine ⟨r, ?_, by simpa using hlen, ?_, ?_⟩
    · rw [lcInner, List.getElem?_eq_getElem hmw, List.getElem?_eq_getElem hmo, ← hr]
      rw [List.getD_eq_getElem _ _ hmo, List.getD_eq_getElem _ _ hmw]
    · intro j hj
      rw [hout j (by omega), List.getElem?_set, if_neg (by omega)]
    · intro j hj1 hj2
      by_cases hjm : j = m
      · subst hjm
        have := hout j (Or.inl (by omega))
        rw [List.getD_eq_getElem?_getD, this, List.getElem?_set, if_pos rfl,
          if_pos hmo]
        rfl
      · rw [hwin j (by omega) (by omega), getD_set_ne _ _ _ _ _ (by omega)]

theorem lcInner_length (wcol : List α) (item : α) (k : Nat) :
    ∀ (out : List α) (m : Nat) (r : List α),
      lcInner wcol item out m k = some r → r.length = out.length := by
  induction k with
  | zero =>
    intro out m r h
    rw [lcInner] at h
    cases h
    rfl
  | succ k ih =>
    intro out m r h
    rw [lcInner] at h
    cases hw : wcol[m]? with
    | none => rw [hw] at h; cases h
    | some wv =>
      cases ho : out[m]? with
      | none => rw [hw, ho] at h; cases h
      | some ov =>
        rw [hw, ho] at h
        have := ih _ _ _ h
        simpa using this

theorem addBias_spec :
    ∀ (bs out : List α) (n : Nat), n + bs.length ≤ out.length →
      ∃ r, addBias out n bs = some r ∧ r.length = out.length ∧
        (∀ j, j < n ∨ n + bs.length ≤ j → r[j]? = out[j]?) ∧
        (∀ j, n ≤ j → j < n + bs.length →
          r.getD j 0 = out.getD j 0 + bs.getD (j - n) 0)
  | [], out, n, _h =>
    ⟨out, rfl, rfl, fun _ _ => rfl, fun j h1 h2 => by
      simp only [List.length_nil] at h2
      omega⟩
  | bv :: bs, out, n, h => by
    have hn : n < out.length := by simp at h; omega
    obtain ⟨r, hr, hlen, hout, hwin⟩ :=
      addBias_spec bs (out.set n (out.getD n 0 + bv)) (n + 1) (by simp at h ⊢; omega)
    refine ⟨r, ?_, by simpa using hlen, ?_, ?_⟩
    · rw [addBias, List.getElem?_eq_getElem hn, ← hr, List.getD_eq_getElem _ _ hn]
    · intro j hj
      simp only [List.length_cons] at hj
      rw [hout j (by omega), List.getElem?_set, if_neg (by omega)]
    · intro j hj1 hj2
      simp only [List.length_cons] at hj2
      by_cases hjn : j = n
      · subst hjn
        have := hout j (Or.inl (by omega))
        rw [List.getD_eq_getElem?_getD, this, List.getElem?_set, if_pos rfl, if_pos hn]
        simp
      · rw [hwin j (by omega) (by omega), getD_set_ne _ _ _ _ _ (by omega)]
        have : j - n = (j - (n + 1)) + 1 := by omega
        rw [this, List.getD_cons_succ]

theorem addBias_length :
    ∀ (bs out : List α) (n : Nat) (r : List α),
      addBias out n bs = some r → r.length = out.length
  | [], out, n, r, h => by
    rw [addBias] at h
    cases h
    rfl
  | bv :: bs, out, n, r, h => by
    rw [addBias] at h
    cases ho : out[n]? with
    | none => rw [ho] at h; cases h
    | some ov =>
      rw [ho] at h
      have := addBias_length bs _ (n + 1) r h
      simpa using this

theorem lcOuter_spec (w : List α) (csize : Nat) :
    ∀ (xs out : List α) (n : Nat),
      out.length = csize → (n + xs.length) * csize ≤ w.length →
      ∃ r, lcOuter w csize out n xs = some r ∧ r.length = csize ∧
        ∀ j, j < csize → r.getD j 0 =
          out.getD j 0 +
            ∑ i ∈ Finset.range xs.length,
              xs.getD i 0 * w.getD ((n + i) * csize + j) 0
  | [], out, n, hlen, _hw =>
    ⟨out, rfl, hlen, fun j _ => by simp⟩
  | x :: xs, out, n, hlen, hw => by
    have hbound : n * csize + csize ≤ w.length := by
      calc n * csize + csize = (n + 1) * csize := by ring
        _ ≤ (n + (x :: xs).length) * csize := by
            refine Nat.mul_le_mul_right _ ?_
            simp only [List.length_cons]
            omega
        _ ≤ w.length := hw
    have hwcol : ((w.drop (n * csize)).take csize).length = csize := by
      simp [List.length_take, List.length_drop]
      omega
    obtain ⟨r1, hr1, hlen1, _hout1, hwin1⟩ :=
      lcInner_spec ((w.drop (n * csize)).take csize) x csize out 0
        (by omega) (by omega)
    obtain ⟨r, hr, hlenr, hwinr⟩ :=
      lcOuter_spec w csize xs r1 (n + 1) (by omega)
        (by
          calc (n + 1 + xs.length) * csize = (n + (x :: xs).length) * csize := by
                simp only [List.length_cons]
                ring
            _ ≤ w.length := hw)
    refine ⟨r, ?_, hlenr, ?_⟩
    · rw [lcOuter, if_pos hbound, hr1]
      exact hr
    · intro j hj
      rw [hwinr j hj, hwin1 j (by omega) (by omega),
        getD_slice w (n * csize) csize j hj hbound]
      simp only [List.length_cons]
      rw [Finset.sum_range_succ']
      simp only [List.getD_cons_succ, List.getD_cons_zero, Nat.add_zero]
      have hsum :
          (∑ i ∈ Finset.range xs.length,
            xs.getD i 0 * w.getD ((n + (i + 1)) * csize + j) 0) =
          ∑ i ∈ Finset.range xs.length,
            xs.getD i 0 * w.getD ((n + 1 + i) * csize + j) 0 :=
        Finset.sum_congr rfl fun i _ => by
          have hidx : (n + (i + 1)) * csize + j = (n + 1 + i) * csize + j := by ring
          rw [hidx]
      rw [hsum]
      ring

theorem lcOuter_length (w : List α) (csize : Nat) :
    ∀ (xs out : List α) (n : Nat) (r : List α),
      lcOuter w csize out n xs = some r → r.length = out.length
  | [], out, n, r, h => by
    rw [lcOuter] at h
    cases h
    rfl
  | x :: xs, out, n, r, h => by
    rw [lcOuter] at h
    by_cases hb : n * csize + csize ≤ w.length
    · rw [if_pos hb] at h
      cases hi : lcInner ((w.drop (n * csize)).take csize) x out 0 csize with
      | none => rw [hi] at h; cases h
      | some out2 =>
        rw [hi] at h
        have h2 := lcOuter_length w csize xs out2 (n + 1) r h
        rw [h2, lcInner_length _ _ _ _ _ _ hi]
    · rw [if_neg hb] at h
      cases h

/-! ### Behaviour of each operator's `execute_operation` -/

/-- `Flatten` ignores its stored state entirely: it always succeeds and
returns the input data with the flat shape `[input.len()]`. -/
theorem flatten_execute_eq (st : Flatten α) (a : NNArray α) :
    st.execute_operation a = .ok ⟨⟨a.data, [a.data.length]⟩⟩ := by
  simp [Flatten.execute_operation, NNArray.copy_array, NNArray.reshape, NNArray.len]

/-- A freshly constructed `ReLu` (empty output buffer) computes the
element-wise `max(x, 0)` map on any input. -/
theorem relu_execute_fresh (a : NNArray α) :
    ReLu.execute_operation ⟨NNArray.empty⟩ a =
      .ok ⟨⟨a.data.map (fun x => max x 0), [a.data.length]⟩⟩ := by
  have hinit : (ReLu.init_array (⟨NNArray.empty⟩ : ReLu α) a.len [a.len]) =
      .ok ⟨⟨List.replicate a.data.length 0, [a.data.length]⟩⟩ := by
    simp [ReLu.init_array, NNArray.empty, NNArray.len, NNArray.new]
  have hw := reluWrite_spec a.data (List.replicate a.data.length (0 : α)) 0
    (by simp)
  simp only [Nat.zero_add, List.take_zero, List.nil_append, List.drop_replicate,
    Nat.sub_self, List.replicate_zero, List.append_nil] at hw
  simp only [ReLu.execute_operation, hinit]
  rw [hw]

/-- A `ReLu` whose output buffer is non-empty and at least as long as the
input succeeds: the first `input.len()` slots get `max(x, 0)`, the rest of
the buffer keeps its previous (stale) contents, and the buffer's shape
descriptor is untouched. -/
theorem relu_execute_reuse (st : ReLu α) (a : NNArray α)
    (h0 : st.output.data.length ≠ 0) (hle : a.data.length ≤ st.output.data.length) :
    st.execute_operation a =
      .ok ⟨⟨a.data.map (fun x => max x 0) ++ st.output.data.drop a.data.length,
        st.output.dimensions⟩⟩ := by
  have hinit : st.init_array a.len [a.len] = .ok st := by
    simp [ReLu.init_array, NNArray.len, h0]
  have hw := reluWrite_spec a.data st.output.data 0 (by omega)
  simp only [Nat.zero_add, List.take_zero, List.nil_append] at hw
  simp only [ReLu.execute_operation, hinit]
  rw [hw]

/-- A `ReLu` whose output buffer is non-empty but shorter than the input
aborts: the write loop indexes past the end of the buffer. -/
theorem relu_execute_crash (st : ReLu α) (a : NNArray α)
    (h0 : st.output.data.length ≠ 0) (hlt : st.output.data.length < a.data.length) :
    st.execute_operation a = .crash := by
  have hinit : st.init_array a.len [a.len] = .ok st := by
    simp [ReLu.init_array, NNArray.len, h0]
  have hne : a.data ≠ [] := List.ne_nil_of_length_pos (by omega)
  have hw := reluWrite_none a.data st.output.data 0 hne (by omega)
  simp only [ReLu.execute_operation, hinit]
  rw [hw]

/-- `LinearCombination::execute_operation` never reads its previous output
buffer: `initialize_array` overwrites it with zeros before accumulation. -/
theorem lc_execute_state_indep (o1 o2 w b a : NNArray α) :
    LinearCombination.execute_operation ⟨o1, w, b⟩ a =
      LinearCombination.execute_operation ⟨o2, w, b⟩ a := rfl

/-- Full characterization of a successful `LinearCombination` execution:
under the bias shape set up by the constructor and the dimension guard
`input.len * bias.len = weights.len`, the result is
`bias[j] + Σ_i input[i] * weights[i * len(bias) + j]` for `j` below the
bias length, with the bias's shape descriptor. -/
theorem lc_execute_ok (self : LinearCombination α) (input : NNArray α)
    (hwf : self.bias.wf)
    (hdiv : input.data.length * self.bias.data.length = self.weights.data.length) :
    self.execute_operation input =
      .ok ⟨⟨(List.range self.bias.data.length).map (fun j =>
              self.bias.data.getD j 0 +
                ∑ i ∈ Finset.range input.data.length,
                  input.data.getD i 0 *
                    self.weights.data.getD (i * self.bias.data.length + j) 0),
            self.bias.dimensions⟩,
          self.weights, self.bias⟩ := by
  have hcond : ¬ (input.data.length * self.bias.data.length ≠ self.weights.data.length) := by
    simp [hdiv]
  have hinit : self.init_array self.bias.data.length self.bias.dimensions =
      .ok ⟨⟨List.replicate self.bias.data.length 0, self.bias.dimensions⟩,
        self.weights, self.bias⟩ := by
    simp [LinearCombination.init_array, NNArray.new, NNArray.copy_array, hwf.symm]
  obtain ⟨d1, hd1, hlen1, hwin1⟩ :=
    lcOuter_spec self.weights.data self.bias.data.length input.data
      (List.replicate self.bias.data.length 0) 0 (by simp)
      (by simpa using le_of_eq hdiv)
  obtain ⟨d2, hd2, hlen2, _hout2, hwin2⟩ :=
    addBias_spec self.bias.data d1 0 (by omega)
  have hd2eq : d2 = (List.range self.bias.data.length).map (fun j =>
      self.bias.data.getD j 0 +
        ∑ i ∈ Finset.range input.data.length,
          input.data.getD i 0 *
            self.weights.data.getD (i * self.bias.data.length + j) 0) := by
    apply List.ext_getElem?
    intro jn
    by_cases hj : jn < self.bias.data.length
    · rw [List.getElem?_eq_getElem (by omega : jn < d2.length),
        List.getElem?_map, List.getElem?_range hj]
      simp only [Option.map_some']
      congr 1
      rw [← List.getD_eq_getElem d2 0 (by omega : jn < d2.length)]
      rw [hwin2 jn (by omega) (by omega), hwin1 jn hj, getD_replicate_zero,
        Nat.sub_zero]
      simp only [Nat.zero_add]
      ring
    · rw [List.getElem?_eq_none (by omega : d2.length ≤ jn),
        List.getElem?_eq_none]
      simp only [List.length_map, List.length_range]
      omega
  simp only [LinearCombination.execute_operation, NNArray.len, if_neg hcond, hinit,
    hd1, hd2, hd2eq]

/-- A successful `LinearCombination` execution keeps weights and bias
unchanged and leaves an output whose data length is the bias length and
whose shape descriptor is the bias's. -/
theorem lc_execute_ok_inv (self : LinearCombination α) (input : NNArray α)
    (st' : LinearCombination α) (h : self.execute_operation input = .ok st') :
    st'.weights = self.weights ∧ st'.bias = self.bias ∧
      st'.output.data.length = self.bias.data.length ∧
      st'.output.dimensions = self.bias.dimensions := by
  rw [LinearCombination.execute_operation] at h
  by_cases hc : input.len * self.bias.len ≠ self.weights.len
  · rw [if_pos hc] at h
    cases h
  · rw [if_neg hc, LinearCombination.init_array, NNArray.new] at h
    by_cases hz : (List.replicate self.bias.len (0 : α)).length =
        self.bias.dimensions.prod
    · rw [if_pos hz] at h
      simp only [NNArray.copy_array] at h
      cases ho : lcOuter self.weights.data self.bias.len
          (List.replicate self.bias.len (0 : α)) 0 input.data with
      | none =>
        simp only [ho] at h
        cases h
      | some d1 =>
        simp only [ho] at h
        cases hb : addBias d1 0 self.bias.data with
        | none =>
          simp only [hb] at h
          cases h
        | some d2 =>
          simp only [hb] at h
          cases h
          refine ⟨rfl, rfl, ?_, rfl⟩
          rw [addBias_length _ _ _ _ hb, lcOuter_length _ _ _ _ _ _ ho]
          simp [NNArray.len]
    · rw [if_neg hz] at h
      cases h

/-- `SoftMax::execute_operation` never fails and never reads its stored
state: the output is rebuilt from scratch as the normalized exponentials
(`e` models `f64::exp`) with shape `[input.len()]`. -/
theorem softmax_execute_eq (e : α → α) (st : SoftMax α) (a : NNArray α) :
    SoftMax.execute_operation e st a =
      .ok ⟨⟨a.data.map (fun x => e x / (a.data.map e).sum), [a.data.length]⟩⟩ := by
  obtain ⟨st1, hinit⟩ : ∃ st1, st.init_array a.len [a.len] = .ok st1 := by
    rw [SoftMax.init_array]
    by_cases h0 : st.output.len = 0
    · rw [if_pos h0]
      simp [NNArray.new]
    · rw [if_neg h0]
      exact ⟨st, rfl⟩
  simp only [SoftMax.execute_operation, hinit]
  simp [NNArray.new, List.map_map, Function.comp]

/-! ### Shape-invariant preservation -/

theorem new_wf (d : List α) (dims : List Nat) (a : NNArray α)
    (h : NNArray.new d dims = .ok a) : a.wf := by
  rw [NNArray.new] at h
  by_cases hc : d.length = dims.prod
  · rw [if_pos hc] at h
    cases h
    exact hc
  · rw [if_neg hc] at h
    cases h

theorem empty_wf : (NNArray.empty : NNArray α).wf := by
  simp [NNArray.empty, NNArray.wf]

theorem copy_array_wf (s o : NNArray α) (h : o.wf) : (s.copy_array o).wf := h

theorem reshape_wf (a : NNArray α) (dims : List Nat) (a' : NNArray α)
    (h : a.reshape dims = .ok a') : a'.wf := by
  rw [NNArray.reshape] at h
  by_cases hc : a.data.length = dims.prod
  · rw [if_pos hc] at h
    cases h
    exact hc
  · rw [if_neg hc] at h
    cases h

theorem flatten_execute_wf (st : Flatten α) (a : NNArray α) (st' : Flatten α)
    (h : st.execute_operation a = .ok st') : st'.output.wf := by
  rw [flatten_execute_eq] at h
  cases h
  simp [NNArray.wf]

theorem relu_execute_wf (st : ReLu α) (a : NNArray α) (st' : ReLu α)
    (hwf : st.output.wf) (h : st.execute_operation a = .ok st') : st'.output.wf := by
  by_cases h0 : st.output.len = 0
  · have hinit : st.init_array a.len [a.len] =
        .ok ⟨⟨List.replicate a.len 0, [a.len]⟩⟩ := by
      simp [ReLu.init_array, NNArray.new, h0]
    simp only [ReLu.execute_operation, hinit] at h
    cases hw : reluWrite (List.replicate a.len (0 : α)) 0 a.data with
    | none =>
      simp only [hw] at h
      cases h
    | some d =>
      simp only [hw] at h
      cases h
      show NNArray.wf _
      rw [NNArray.wf]
      rw [reluWrite_length _ _ _ _ hw]
      simp
  · have hinit : st.init_array a.len [a.len] = .ok st := by
      simp [ReLu.init_array, h0]
    simp only [ReLu.execute_operation, hinit] at h
    cases hw : reluWrite st.output.data 0 a.data with
    | none =>
      simp only [hw] at h
      cases h
    | some d =>
      simp only [hw] at h
      cases h
      show NNArray.wf _
      rw [NNArray.wf]
      rw [reluWrite_length _ _ _ _ hw]
      exact hwf

theorem lc_execute_wf (self : LinearCombination α) (a : NNArray α)
    (st' : LinearCombination α) (hbw : self.bias.wf)
    (h : self.execute_operation a = .ok st') : st'.output.wf := by
  obtain ⟨_, _, h3, h4⟩ := lc_execute_ok_inv self a st' h
  rw [NNArray.wf, h3, h4]
  exact hbw

theorem softmax_execute_wf (e : α → α) (st : SoftMax α) (a : NNArray α)
    (st' : SoftMax α) (h : SoftMax.execute_operation e st a = .ok st') :
    st'.output.wf := by
  rw [softmax_execute_eq] at h
  cases h
  simp [NNArray.wf]

/-! ### Replay: a second run on a same-length input behaves like a fresh run -/

/-- Output length of a successful execution of a fresh operator, as a
function of the input length. -/
theorem op_execute_ok_output (e : α → α) (op op' : Op α) (a : NNArray α)
    (hf : op.Fresh) (h : Op.execute_operation e op a = .ok op') :
    op'.output.data.length = op.outLen a.data.length := by
  cases op with
  | flatten st =>
    simp only [Op.execute_operation, flatten_execute_eq] at h
    cases h
    simp [Op.output, Op.outLen]
  | relu st =>
    cases st with
    | mk out =>
      rw [Op.Fresh] at hf
      simp only at hf
      subst hf
      simp only [Op.execute_operation, relu_execute_fresh] at h
      cases h
      simp [Op.output, Op.outLen]
  | linear st =>
    cases hexec : st.execute_operation a with
    | ok st1 =>
      simp only [Op.execute_operation, hexec] at h
      cases h
      obtain ⟨_, _, h3, _⟩ := lc_execute_ok_inv st a st1 hexec
      simpa [Op.output, Op.outLen] using h3
    | err s =>
      simp only [Op.execute_operation, hexec] at h
      cases h
    | crash =>
      simp only [Op.execute_operation, hexec] at h
      cases h
  | softmax st =>
    simp only [Op.execute_operation, softmax_execute_eq] at h
    cases h
    simp [Op.output, Op.outLen]

/-- After one successful execution of a freshly constructed operator, a
second call on an input of the same length behaves exactly as a fresh
operator would: the lazily allocated buffer fits, `LinearCombination`
re-zeroes its accumulator, and `Flatten`/`SoftMax` ignore their state. -/
theorem op_replay (e : α → α) (op op1 : Op α) (a1 : NNArray α) (hf : op.Fresh)
    (h : Op.execute_operation e op a1 = .ok op1) :
    ∀ a2 : NNArray α, a2.data.length = a1.data.length →
      Op.execute_operation e op1 a2 = Op.execute_operation e op a2 := by
  intro a2 hlen
  cases op with
  | flatten st =>
    simp only [Op.execute_operation, flatten_execute_eq] at h ⊢
    cases h
    simp [flatten_execute_eq]
  | relu st =>
    cases st with
    | mk out =>
      rw [Op.Fresh] at hf
      simp only at hf
      subst hf
      simp only [Op.execute_operation, relu_execute_fresh] at h
      cases h
      by_cases h0 : a1.data.length = 0
      · have ha1 : a1.data = [] := List.length_eq_zero.mp h0
        have ha2 : a2.data = [] := List.length_eq_zero.mp (by omega)
        simp only [Op.execute_operation, ha1, h0, List.map_nil]
        rfl
      · simp only [Op.execute_operation]
        rw [relu_execute_reuse _ _ (by simpa using h0) (by simp; omega),
          relu_execute_fresh]
        have hdrop : (a1.data.map (fun x => max x 0)).drop a2.data.length = [] := by
          rw [hlen, ← List.length_map a1.data (fun x => max x 0), List.drop_length]
        rw [hdrop, List.append_nil, hlen]
  | linear st =>
    cases hexec : st.execute_operation a1 with
    | ok st1 =>
      simp only [Op.execute_operation, hexec] at h
      cases h
      obtain ⟨hw, hb, _, _⟩ := lc_execute_ok_inv st a1 st1 hexec
      cases st1 with
      | mk o1 w1 b1 =>
        cases st with
        | mk o w b =>
          simp only at hw hb
          subst hw
          subst hb
          simp only [Op.execute_operation, lc_execute_state_indep o1 o w1 b1 a2]
    | err s =>
      simp only [Op.execute_operation, hexec] at h
      cases h
    | crash =>
      simp only [Op.execute_operation, hexec] at h
      cases h
  | softmax st =>
    simp only [Op.execute_operation, softmax_execute_eq] at h ⊢
    cases h
    simp [softmax_execute_eq]

/-- Pipeline-level replay: running the operator states produced by one
successful inference on a second input of the same length gives exactly
the run of the original (fresh) operators on that input. -/
theorem runOps_replay (e : α → α) :
    ∀ (ops : List (Op α)) (x1 : NNArray α) (ops1 : List (Op α)) (y1 : NNArray α),
      (∀ op ∈ ops, op.Fresh) →
      Network.runOps e ops x1 = .ok (ops1, y1) →
      ∀ x2 : NNArray α, x2.data.length = x1.data.length →
        Network.runOps e ops1 x2 = Network.runOps e ops x2 := by
  intro ops
  induction ops with
  | nil =>
    intro x1 ops1 y1 _ h x2 _
    rw [Network.runOps] at h
    cases h
    rfl
  | cons op rest ih =>
    intro x1 ops1 y1 hfresh h x2 hlen
    have hfop : op.Fresh := hfresh op (by simp)
    have hfrest : ∀ o ∈ rest, o.Fresh := fun o ho => hfresh o (by simp [ho])
    rw [Network.runOps] at h
    cases hexec : Op.execute_operation e op x1 with
    | err s =>
      simp only [hexec] at h
      cases h
    | crash =>
      simp only [hexec] at h
      cases h
    | ok op1 =>
      simp only [hexec] at h
      cases hrest : Network.runOps e rest op1.output with
      | err s =>
        simp only [hrest] at h
        cases h
      | crash =>
        simp only [hrest] at h
        cases h
      | ok pr =>
        cases pr with
        | mk rest1 out1 =>
          simp only [hrest] at h
          cases h
          rw [Network.runOps, Network.runOps,
            op_replay e op op1 x1 hfop hexec x2 hlen]
          cases hexec2 : Op.execute_operation e op x2 with
          | err s => rfl
          | crash => rfl
          | ok op2 =>
            have hlen2 : op2.output.data.length = op1.output.data.length := by
              rw [op_execute_ok_output e op op2 x2 hfop hexec2,
                op_execute_ok_output e op op1 x1 hfop hexec, hlen]
            simp only [ih op1.output rest1 y1 hfrest hrest op2.output hlen2]

/-! ### Real-valued facts for the SoftMax analysis -/

theorem list_sum_map_div : ∀ (l : List ℝ) (s : ℝ),
    (l.map (fun x => x / s)).sum = l.sum / s
  | [], s => by simp
  | x :: l, s => by
    simp only [List.map_cons, List.sum_cons, list_sum_map_div l s]
    rw [add_div]

theorem list_lt_sum_of_two_le (l : List ℝ) (hpos : ∀ x ∈ l, 0 < x)
    (h2 : 2 ≤ l.length) : ∀ x ∈ l, x < l.sum := by
  cases l with
  | nil => simp at h2
  | cons a t =>
    have ht : t ≠ [] := by
      cases t with
      | nil => simp at h2
      | cons b u => simp
    have htpos : ∀ x ∈ t, 0 < x := fun x hx => hpos x (List.mem_cons_of_mem a hx)
    intro x hx
    rw [List.sum_cons]
    rcases List.mem_cons.mp hx with hxa | hxt
    · subst hxa
      exact lt_add_of_pos_right x (List.sum_pos t htpos ht)
    · calc x ≤ t.sum := List.single_le_sum (fun y hy => (htpos y hy).le) x hxt
        _ < a + t.sum := lt_add_of_pos_left t.sum (hpos a (List.mem_cons_self a t))

/-! ### The claims -/

/-- Claim C1: for every `LinearCombination` operator (bias shaped
`[len(bias)]` as its constructor builds it) and every input whose length
`L` satisfies `L * len(bias) = len(weights)`, `execute_operation` returns
an output of length `len(bias)` with
`output[j] = bias[j] + Σ_i input[i] * weights[i * len(bias) + j]`
(row-major weights), weights and bias unchanged. -/
theorem c1_linear_combination_affine {α : Type} [LinearOrderedCommRing α] [Div α]
    (self : LinearCombination α) (input : NNArray α)
    (hb : self.bias.dimensions = [self.bias.data.length])
    (hdiv : input.data.length * self.bias.data.length = self.weights.data.length) :
    self.execute_operation input =
      .ok ⟨⟨(List.range self.bias.data.length).map (fun j =>
              self.bias.data.getD j 0 +
                ∑ i ∈ Finset.range input.data.length,
                  input.data.getD i 0 *
                    self.weights.data.getD (i * self.bias.data.length + j) 0),
            [self.bias.data.length]⟩,
          self.weights, self.bias⟩ := by
  have hwf : self.bias.wf := by
    rw [NNArray.wf, hb]
    simp
  rw [lc_execute_ok self input hwf hdiv, hb]

/-- Claim C1 witness: the spec's concrete example — input `[1,2,3,4]`,
weights `[1,5,2,6,3,7,4,8]` (4 rows × 2 columns), bias `[2,2]` — yields
`[32,72]`. -/
theorem c1_witness :
    LinearCombination.execute_operation
        (⟨NNArray.empty, ⟨[1, 5, 2, 6, 3, 7, 4, 8], [4, 2]⟩,
          ⟨[2, 2], [2]⟩⟩ : LinearCombination ℤ)
        ⟨[1, 2, 3, 4], [4]⟩ =
      .ok ⟨⟨[32, 72], [2]⟩, ⟨[1, 5, 2, 6, 3, 7, 4, 8], [4, 2]⟩, ⟨[2, 2], [2]⟩⟩ :=
  (c1_linear_combination_affine
      (⟨NNArray.empty, ⟨[1, 5, 2, 6, 3, 7, 4, 8], [4, 2]⟩,
        ⟨[2, 2], [2]⟩⟩ : LinearCombination ℤ)
      ⟨[1, 2, 3, 4], [4]⟩ (by decide) (by decide)).trans (by decide)

/-- Claim C2 (code bug witness): when an operator fails inside
`execute_inference`, the `.unwrap()` in the fold aborts the whole process
(`crash`) instead of returning the operator's `Err` to the caller: here the
`LinearCombination` itself returns `Err("Arrays dimension mismatch")` on a
length-3 input (3 * 1 ≠ 2), yet the pipeline result is a crash, not an
error value. -/
theorem c2_pipeline_crash_on_operator_error :
    (LinearCombination.execute_operation
        (⟨NNArray.empty, ⟨[1, 2], [2]⟩, ⟨[1], [1]⟩⟩ : LinearCombination ℤ)
        ⟨[1, 2, 3], [3]⟩ = .err "Arrays dimension mismatch") ∧
    Network.execute_inference id
        (⟨[.linear ⟨NNArray.empty, ⟨[1, 2], [2]⟩, ⟨[1], [1]⟩⟩,
           .relu ⟨NNArray.empty⟩], NNArray.empty⟩ : Network ℤ)
        ⟨[1, 2, 3], [3]⟩ = .crash :=
  ⟨by decide, by decide⟩

/-- Claim C3: on a network of freshly constructed operators (one of them a
`LinearCombination`), after a successful `execute_inference` on `x1`, a
second call on any same-shaped well-formed `x2` gives exactly what a
freshly constructed identical network gives on `x2`: no state accumulated
by the first call leaks into the second result (the `LinearCombination`
accumulator is re-zeroed on every invocation). -/
theorem c3_no_state_leak_across_calls {α : Type} [LinearOrderedCommRing α] [Div α]
    (e : α → α) (ops : List (Op α)) (inp0 : NNArray α)
    (hfresh : ∀ op ∈ ops, op.Fresh)
    (hlc : ∃ st, Op.linear st ∈ ops)
    (x1 x2 : NNArray α) (hshape : x1.dimensions = x2.dimensions)
    (hw1 : x1.wf) (hw2 : x2.wf)
    (net1 : Network α) (y1 : NNArray α)
    (h1 : Network.execute_inference e ⟨ops, inp0⟩ x1 = .ok (net1, y1)) :
    Network.execute_inference e net1 x2 =
      Network.execute_inference e ⟨ops, NNArray.empty⟩ x2 := by
  have hlen : x2.data.length = x1.data.length := by
    rw [NNArray.wf] at hw1 hw2
    rw [hw1, hw2, hshape]
  rw [Network.execute_inference] at h1
  cases hrun : Network.runOps e ops x1 with
  | err s =>
    simp only [hrun] at h1
    cases h1
  | crash =>
    simp only [hrun] at h1
    cases h1
  | ok pr =>
    cases pr with
    | mk ops1 yy =>
      simp only [hrun] at h1
      cases h1
      simp only [Network.execute_inference,
        runOps_replay e ops x1 ops1 y1 hfresh hrun x2 hlen]

/-- Claim C3 witness: a concrete ReLU–Linear network, run once on
`[1,-2]`; a second call on `[10,20]` coincides with a fresh network's
run. -/
theorem c3_witness :
    Network.execute_inference (id : ℤ → ℤ)
        ⟨[.relu ⟨⟨[1, 0], [2]⟩⟩,
          .linear ⟨⟨[8], [1]⟩, ⟨[3, 4], [2]⟩, ⟨[5], [1]⟩⟩], ⟨[1, -2], [2]⟩⟩
        ⟨[10, 20], [2]⟩ =
      Network.execute_inference id
        ⟨[.relu ⟨NNArray.empty⟩,
          .linear ⟨NNArray.empty, ⟨[3, 4], [2]⟩, ⟨[5], [1]⟩⟩], NNArray.empty⟩
        ⟨[10, 20], [2]⟩ :=
  c3_no_state_leak_across_calls id
    [.relu ⟨NNArray.empty⟩, .linear ⟨NNArray.empty, ⟨[3, 4], [2]⟩, ⟨[5], [1]⟩⟩]
    NNArray.empty (by decide)
    ⟨⟨NNArray.empty, ⟨[3, 4], [2]⟩, ⟨[5], [1]⟩⟩, by decide⟩
    ⟨[1, -2], [2]⟩ ⟨[10, 20], [2]⟩ rfl (by decide) (by decide)
    ⟨[.relu ⟨⟨[1, 0], [2]⟩⟩,
      .linear ⟨⟨[8], [1]⟩, ⟨[3, 4], [2]⟩, ⟨[5], [1]⟩⟩], ⟨[1, -2], [2]⟩⟩
    ⟨[8], [1]⟩ (by decide)

/-- Claim C4 counterexample: as stated the claim fails on the code.  On the
empty input (all elements vacuously finite) the output is empty, so its
elements sum to `0`, not `1`; on the singleton input `[0]` the output is
`[1]`, whose element does not lie strictly below `1`. -/
theorem c4_cex :
    (SoftMax.execute_operation Real.exp ⟨NNArray.empty⟩
        (⟨[], [0]⟩ : NNArray ℝ) = .ok ⟨⟨[], [0]⟩⟩) ∧
    ¬ (([] : List ℝ).sum = 1) ∧
    (SoftMax.execute_operation Real.exp ⟨NNArray.empty⟩
        (⟨[0], [1]⟩ : NNArray ℝ) = .ok ⟨⟨[1], [1]⟩⟩) ∧
    ¬ (∀ y ∈ [(1 : ℝ)], 0 < y ∧ y < 1) := by
  refine ⟨?_, by simp, ?_, by simp⟩
  · simp [SoftMax.execute_operation, SoftMax.init_array, NNArray.new,
      NNArray.empty, NNArray.len]
  · simp [SoftMax.execute_operation, SoftMax.init_array, NNArray.new,
      NNArray.empty, NNArray.len]

/-- Claim C4 (amended): for every nonempty input, `SoftMax` returns an
output of the same length with `output[i] = exp(input[i]) / Σ_j exp(input[j])`,
the elements sum exactly to `1` (in the exact-real model of `f64`), and
every element lies in `(0, 1]`; the strict upper bound `< 1` holds as soon
as the input has at least two elements. -/
theorem c4_softmax_normalized (st : SoftMax ℝ) (input : NNArray ℝ)
    (hne : input.data ≠ []) :
    ∃ out : List ℝ,
      SoftMax.execute_operation Real.exp st input =
          .ok ⟨⟨out, [input.data.length]⟩⟩ ∧
      out = input.data.map
          (fun x => Real.exp x / (input.data.map Real.exp).sum) ∧
      out.length = input.data.length ∧
      out.sum = 1 ∧
      (∀ y ∈ out, 0 < y ∧ y ≤ 1) ∧
      (2 ≤ input.data.length → ∀ y ∈ out, y < 1) := by
  set S := (input.data.map Real.exp).sum with hS
  have hmapne : input.data.map Real.exp ≠ [] := by
    simpa using hne
  have hpos : ∀ y ∈ input.data.map Real.exp, 0 < y := by
    intro y hy
    obtain ⟨x, _, hx⟩ := List.mem_map.mp hy
    rw [← hx]
    exact Real.exp_pos x
  have hSpos : 0 < S := List.sum_pos _ hpos hmapne
  refine ⟨input.data.map (fun x => Real.exp x / S),
    softmax_execute_eq Real.exp st input, rfl, by simp, ?_, ?_, ?_⟩
  · have : input.data.map (fun x => Real.exp x / S) =
        (input.data.map Real.exp).map (fun x => x / S) := by
      rw [List.map_map]
      rfl
    rw [this, list_sum_map_div, ← hS, div_self (ne_of_gt hSpos)]
  · intro y hy
    obtain ⟨x, hx, hxy⟩ := List.mem_map.mp hy
    rw [← hxy]
    constructor
    · exact div_pos (Real.exp_pos x) hSpos
    · rw [div_le_one hSpos]
      exact List.single_le_sum (fun z hz => (hpos z hz).le) _
        (List.mem_map_of_mem Real.exp hx)
  · intro h2 y hy
    obtain ⟨x, hx, hxy⟩ := List.mem_map.mp hy
    rw [← hxy, div_lt_one hSpos]
    exact list_lt_sum_of_two_le _ hpos (by simpa using h2) _
      (List.mem_map_of_mem Real.exp hx)

/-- Claim C4 witness: the amended claim instantiated at the two-element
input `[0, 0]`. -/
theorem c4_witness :
    ([(0 : ℝ), 0] ≠ []) ∧
    (∃ out : List ℝ,
      SoftMax.execute_operation Real.exp ⟨NNArray.empty⟩
          (⟨[0, 0], [2]⟩ : NNArray ℝ) = .ok ⟨⟨out, [([(0 : ℝ), 0]).length]⟩⟩ ∧
      out = [(0 : ℝ), 0].map
          (fun x => Real.exp x / ([(0 : ℝ), 0].map Real.exp).sum) ∧
      out.length = [(0 : ℝ), 0].length ∧
      out.sum = 1 ∧
      (∀ y ∈ out, 0 < y ∧ y ≤ 1) ∧
      (2 ≤ [(0 : ℝ), 0].length → ∀ y ∈ out, y < 1)) :=
  ⟨by simp, c4_softmax_normalized ⟨NNArray.empty⟩ ⟨[0, 0], [2]⟩ (by simp)⟩

/-- Claim C5 (code bug witness): `Array::new` and `Array::reshape` do
detect exactly the claimed condition (`product(dims) ≠ length(data)`), but
they abort the process via `assert_eq!` (modelled `crash`) instead of
returning a typed ShapeMismatch failure; on matching shapes both succeed. -/
theorem c5_array_new_reshape_abort :
    (NNArray.new ([1] : List ℤ) [2] = .crash) ∧
    (NNArray.reshape (⟨[1], [1]⟩ : NNArray ℤ) [2] = .crash) ∧
    (NNArray.new ([1, 2] : List ℤ) [2] = .ok ⟨[1, 2], [2]⟩) ∧
    (NNArray.reshape (⟨[1, 2], [2]⟩ : NNArray ℤ) [1, 2] = .ok ⟨[1, 2], [1, 2]⟩) := by
  refine ⟨by decide, by decide, by decide, by decide⟩

/-- Claim C6 (code bug witness): `LinearCombination::new` performs no
divisibility check at all: with weights of length 3 and bias of length 2
(`3 % 2 ≠ 0`) construction succeeds silently instead of failing with
DimensionMismatch; in general construction succeeds whenever the weights
shape assertion passes, regardless of the bias length. -/
theorem c6_construction_no_divisibility_check :
    ((3 : Nat) % 2 ≠ 0) ∧
    (LinearCombination.new ([1, 2, 3] : List ℤ) [3] [1, 2] =
      .ok ⟨NNArray.empty, ⟨[1, 2, 3], [3]⟩, ⟨[1, 2], [2]⟩⟩) ∧
    (∀ (w b : List ℤ) (wd : List Nat), w.length = wd.prod →
      LinearCombination.new w wd b =
        .ok ⟨NNArray.empty, ⟨w, wd⟩, ⟨b, [b.length]⟩⟩) := by
  refine ⟨by decide, by decide, ?_⟩
  intro w b wd hw
  simp [LinearCombination.new, NNArray.new, hw]

/-- Claim C7: every `Array` observable through the public operations
satisfies `product(dimensions) = length(data)`: construction and reshape
guarantee it on success, the empty array satisfies it, `copy_array`
preserves it, and each operator's execution yields a well-formed output
(given the well-formedness of the state it reads: the reused `ReLu`
buffer, respectively the constructor-shaped bias of `LinearCombination`). -/
theorem c7_shape_invariant {α : Type} [LinearOrderedCommRing α] [Div α] (e : α → α) :
    (∀ (d : List α) (dims : List Nat) (a : NNArray α),
      NNArray.new d dims = .ok a → a.wf) ∧
    (NNArray.empty : NNArray α).wf ∧
    (∀ s o : NNArray α, o.wf → (s.copy_array o).wf) ∧
    (∀ (a : NNArray α) (dims : List Nat) (a' : NNArray α),
      a.reshape dims = .ok a' → a'.wf) ∧
    (∀ (st : Flatten α) (a : NNArray α) (st' : Flatten α),
      st.execute_operation a = .ok st' → st'.output.wf) ∧
    (∀ (st : ReLu α) (a : NNArray α) (st' : ReLu α),
      st.output.wf → st.execute_operation a = .ok st' → st'.output.wf) ∧
    (∀ (st : LinearCombination α) (a : NNArray α) (st' : LinearCombination α),
      st.bias.wf → st.execute_operation a = .ok st' → st'.output.wf) ∧
    (∀ (st : SoftMax α) (a : NNArray α) (st' : SoftMax α),
      SoftMax.execute_operation e st a = .ok st' → st'.output.wf) :=
  ⟨new_wf, empty_wf, copy_array_wf, reshape_wf, flatten_execute_wf,
    relu_execute_wf, lc_execute_wf, softmax_execute_wf e⟩

/-- Claim C8: a freshly constructed `ReLu` maps every input to the
element-wise `max(x, 0)` of the same length; in particular
`relu([4,-1,5,0,-2]) = [4,0,5,0,0]`; and the ReLU value map is idempotent. -/
theorem c8_relu_map_and_idempotent {α : Type} [LinearOrderedCommRing α] [Div α] :
    (∀ a : NNArray α, ReLu.execute_operation ⟨NNArray.empty⟩ a =
      .ok ⟨⟨a.data.map (fun x => max x 0), [a.data.length]⟩⟩) ∧
    (ReLu.execute_operation (⟨NNArray.empty⟩ : ReLu ℤ) ⟨[4, -1, 5, 0, -2], [5]⟩ =
      .ok ⟨⟨[4, 0, 5, 0, 0], [5]⟩⟩) ∧
    (∀ x : List α, (x.map (fun v => max v 0)).map (fun v => max v 0) =
      x.map (fun v => max v 0)) := by
  refine ⟨relu_execute_fresh, by decide, ?_⟩
  intro x
  rw [List.map_map]
  congr 1
  funext v
  simp [Function.comp, max_assoc]

/-- Claim C9 counterexample: `LinearCombination::initialize_array` is not
an idempotent lazy allocation: on a non-empty output buffer (`[5]`) it is
not a no-op — it resets the buffer to zeros. -/
theorem c9_cex :
    ((⟨⟨[5], [1]⟩, ⟨[1], [1]⟩, ⟨[3], [1]⟩⟩ :
        LinearCombination ℤ).output.data.length ≠ 0) ∧
    (LinearCombination.init_array
        (⟨⟨[5], [1]⟩, ⟨[1], [1]⟩, ⟨[3], [1]⟩⟩ : LinearCombination ℤ) 1 [1] =
      .ok ⟨⟨[0], [1]⟩, ⟨[1], [1]⟩, ⟨[3], [1]⟩⟩) ∧
    (LinearCombination.init_array
        (⟨⟨[5], [1]⟩, ⟨[1], [1]⟩, ⟨[3], [1]⟩⟩ : LinearCombination ℤ) 1 [1] ≠
      .ok ⟨⟨[5], [1]⟩, ⟨[1], [1]⟩, ⟨[3], [1]⟩⟩) :=
  ⟨by decide, by decide, by decide⟩

/-- Claim C9 (amended): `Flatten`'s `initialize_array` is always a no-op;
`ReLu`'s and `SoftMax`'s are idempotent lazy allocations — they allocate a
zero buffer only when the output is empty and are a no-op otherwise; but
`LinearCombination`'s `initialize_array` unconditionally resets the output
to zeros of the requested size (implementing the accumulator reset), so it
is not a no-op on a non-empty buffer. -/
theorem c9_init_lazy_amended {α : Type} [LinearOrderedCommRing α] [Div α] :
    (∀ (st : Flatten α) (size : Nat) (dims : List Nat),
      st.init_array size dims = st) ∧
    (∀ (st : ReLu α) (size : Nat) (dims : List Nat),
      st.output.data.length ≠ 0 → st.init_array size dims = .ok st) ∧
    (∀ (st : ReLu α) (size : Nat) (dims : List Nat),
      st.output.data.length = 0 → size = dims.prod →
        st.init_array size dims = .ok ⟨⟨List.replicate size 0, dims⟩⟩) ∧
    (∀ (st : SoftMax α) (size : Nat) (dims : List Nat),
      st.output.data.length ≠ 0 → st.init_array size dims = .ok st) ∧
    (∀ (st : SoftMax α) (size : Nat) (dims : List Nat),
      st.output.data.length = 0 → size = dims.prod →
        st.init_array size dims = .ok ⟨⟨List.replicate size 0, dims⟩⟩) ∧
    (∀ (st : LinearCombination α) (size : Nat) (dims : List Nat),
      size = dims.prod →
        st.init_array size dims =
          .ok ⟨⟨List.replicate size 0, dims⟩, st.weights, st.bias⟩) := by
  refine ⟨fun st size dims => rfl, ?_, ?_, ?_, ?_, ?_⟩
  · intro st size dims h0
    simp [ReLu.init_array, NNArray.len, h0]
  · intro st size dims h0 hsz
    simp [ReLu.init_array, NNArray.len, h0, NNArray.new, hsz]
  · intro st size dims h0
    simp [SoftMax.init_array, NNArray.len, h0]
  · intro st size dims h0 hsz
    simp [SoftMax.init_array, NNArray.len, h0, NNArray.new, hsz]
  · intro st size dims hsz
    simp [LinearCombination.init_array, NNArray.new, NNArray.copy_array, hsz]

/-- Claim C10: for a `ReLu` whose output buffer holds `n > 0` elements
(allocated by the first call): a longer input crashes (out-of-bounds write,
not a returned error); a shorter input of length `m` succeeds with an
output still of length `n` whose positions `m..n-1` keep the stale values
of the previous call; and an input of length exactly `n` always succeeds
with the element-wise `max(x, 0)` map. -/
theorem c10_relu_buffer_reuse {α : Type} [LinearOrderedCommRing α] [Div α]
    (st : ReLu α) (n : Nat) (hn : 0 < n) (hlen : st.output.data.length = n) :
    (∀ a : NNArray α, n < a.data.length → st.execute_operation a = .crash) ∧
    (∀ a : NNArray α, a.data.length < n →
      st.execute_operation a =
        .ok ⟨⟨a.data.map (fun x => max x 0) ++ st.output.data.drop a.data.length,
          st.output.dimensions⟩⟩ ∧
      (a.data.map (fun x => max x 0) ++
        st.output.data.drop a.data.length).length = n ∧
      (∀ i, a.data.length ≤ i →
        (a.data.map (fun x => max x 0) ++
          st.output.data.drop a.data.length)[i]? = st.output.data[i]?)) ∧
    (∀ a : NNArray α, a.data.length = n →
      st.execute_operation a =
        .ok ⟨⟨a.data.map (fun x => max x 0), st.output.dimensions⟩⟩) := by
  refine ⟨?_, ?_, ?_⟩
  · intro a ha
    exact relu_execute_crash st a (by omega) (by omega)
  · intro a ha
    refine ⟨relu_execute_reuse st a (by omega) (by omega), ?_, ?_⟩
    · simp only [List.length_append, List.length_map, List.length_drop]
      omega
    · intro i hi
      rw [List.getElem?_append_right (by simpa using hi), List.getElem?_drop]
      congr 1
      simp only [List.length_map]
      omega
  · intro a ha
    rw [relu_execute_reuse st a (by omega) (by omega)]
    rw [ha, ← hlen, List.drop_length, List.append_nil]

/-- Claim C10 witness: buffer `[1,2]` (n = 2): input `[1,2,3]` crashes;
input `[7]` yields `[7,2]` (stale `2` kept); input `[3,-1]` yields `[3,0]`. -/
theorem c10_witness :
    (ReLu.execute_operation (⟨⟨[1, 2], [2]⟩⟩ : ReLu ℤ) ⟨[1, 2, 3], [3]⟩ = .crash) ∧
    (ReLu.execute_operation (⟨⟨[1, 2], [2]⟩⟩ : ReLu ℤ) ⟨[7], [1]⟩ =
      .ok ⟨⟨[7, 2], [2]⟩⟩) ∧
    (ReLu.execute_operation (⟨⟨[1, 2], [2]⟩⟩ : ReLu ℤ) ⟨[3, -1], [2]⟩ =
      .ok ⟨⟨[3, 0], [2]⟩⟩) := by
  have h := c10_relu_buffer_reuse (⟨⟨[1, 2], [2]⟩⟩ : ReLu ℤ) 2 (by decide) (by decide)
  exact ⟨h.1 ⟨[1, 2, 3], [3]⟩ (by decide),
    ((h.2.1 ⟨[7], [1]⟩ (by decide)).1).trans (by decide),
    (h.2.2 ⟨[3, -1], [2]⟩ (by decide)).trans (by decide)⟩

end Trial
